import Mathlib

/-!
Verification development for the Postura squat-coaching core.

The definitions below are shallow embeddings of the TypeScript source:
* the rep-counting finite state machine (`createFSM`, `stepFSM`),
* the N-of-M temporal gate (`TemporalGate`),
* the coaching rule engine (`checkRulesAtBottom`) and the per-rep cue
  selection performed by the camera loop,
* the knee-angle depth mapping (`clamp01`, `kneeDepth`),
* trunk-angle math (`atan2`, `trunkAngle`),
* the One-Euro keypoint smoother (`LowPass`, `OneEuro1D`, `PoseSmoother`).

Numeric values that are IEEE doubles in the source are modelled as exact
rationals where the code is pure rational arithmetic, and as real numbers
where the code uses `Math.hypot`, `Math.atan2` or `Math.PI`.
-/

/-! ## Squat FSM (src: fsm.ts) -/

inductive State where
  | idle
  | descent
  | bottom
  | ascent
  | lockout
deriving DecidableEq, Repr

structure RepContext where
  state : State
  reps : ℕ
  lastHipY : Option ℚ
  depthReached : Bool
deriving DecidableEq, Repr

def createFSM : RepContext :=
  { state := State.idle, reps := 0, lastHipY := none, depthReached := false }

/-- One step of the FSM.  `hipY` is the normalized hip-center y
(0 top, 1 bottom); `depthOkay` is the gated depth boolean. -/
def stepFSM (ctx : RepContext) (hipY : ℚ) (depthOkay : Bool) : RepContext :=
  let vy : ℚ :=
    match ctx.lastHipY with
    | none => 0
    | some l => hipY - l
  let depthReached := ctx.depthReached || depthOkay
  let next : State × ℕ × Bool :=
    match ctx.state with
    | State.idle =>
        (if vy > 0.002 then State.descent else State.idle, ctx.reps, depthReached)
    | State.descent =>
        if vy > -0.001 ∧ vy < 0.001 ∧ depthReached = true then
          (State.bottom, ctx.reps, depthReached)
        else if vy < -0.002 then
          (State.ascent, ctx.reps, depthReached)
        else
          (State.descent, ctx.reps, depthReached)
    | State.bottom =>
        (if vy < -0.002 then State.ascent else State.bottom, ctx.reps, depthReached)
    | State.ascent =>
        if vy > -0.001 ∧ vy < 0.001 then
          (State.lockout, if depthReached then ctx.reps + 1 else ctx.reps, false)
        else
          (State.ascent, ctx.reps, depthReached)
    | State.lockout =>
        (if vy > 0.002 then State.descent else State.lockout, ctx.reps, depthReached)
  { state := next.1, reps := next.2.1, lastHipY := some hipY, depthReached := next.2.2 }

/-- Run the FSM from `createFSM` over a list of `(hipY, depthOkay)` inputs. -/
def runFSM (inputs : List (ℚ × Bool)) : RepContext :=
  inputs.foldl (fun ctx p => stepFSM ctx p.1 p.2) createFSM

/-! ## Temporal gate (src: temporal.ts) -/

structure TemporalGate where
  buf : List Bool
  max : ℕ
  need : ℕ
deriving DecidableEq, Repr

/-- `new TemporalGate(max, need)` -/
def TemporalGate.mk0 (max need : ℕ) : TemporalGate :=
  { buf := [], max := max, need := need }

/-- `push`: append the sample, evict the oldest if over capacity, and report
whether at least `need` of the retained samples are true. -/
def TemporalGate.push (g : TemporalGate) (v : Bool) : Bool × TemporalGate :=
  let buf1 := g.buf ++ [v]
  let buf2 := if buf1.length > g.max then buf1.tail else buf1
  (decide (g.need ≤ (buf2.filter id).length), { g with buf := buf2 })

def TemporalGate.reset (g : TemporalGate) : TemporalGate :=
  { g with buf := [] }

/-- Push a whole list of samples, collecting the returned booleans. -/
def TemporalGate.pushMany (g : TemporalGate) : List Bool → List Bool × TemporalGate
  | [] => ([], g)
  | v :: rest =>
      let r := g.push v
      let rr := r.2.pushMany rest
      (r.1 :: rr.1, rr.2)

/-- The last `n` elements of a list, in order. -/
def lastN (n : ℕ) (l : List Bool) : List Bool :=
  l.drop (l.length - n)

/-! ## Coaching rule engine (src: rules.ts) -/

inductive CueType where
  | depth
  | trunk
  | knee
deriving DecidableEq, Repr

structure Cue where
  type : CueType
  message : String
deriving DecidableEq, Repr

structure RuleOpts where
  depthAchieved : Bool
  trunkDeltaDeg : Option ℚ
  trunkDeltaThreshold : ℚ
deriving DecidableEq, Repr

/-- `checkRulesAtBottom`: collect the applicable cues, depth first. -/
def checkRulesAtBottom (opts : RuleOpts) : List Cue :=
  (if opts.depthAchieved = false then [{ type := CueType.depth, message := "Go deeper" }] else [])
    ++
  (match opts.trunkDeltaDeg with
   | some d =>
       if d > opts.trunkDeltaThreshold then [{ type := CueType.trunk, message := "Chest up" }]
       else []
   | none => [])

/-- The camera loop's selection step:
`cues.find(c => c.type !== spokeCueTypeThisRep)`. -/
def selectCue (spoke : Option CueType) (cues : List Cue) : Option Cue :=
  cues.find? (fun c => decide (some c.type ≠ spoke))

/-- One evaluation event inside a rep cycle, as fed by the camera loop
(which passes `trunkDeltaThreshold = 16`). -/
structure EvalInput where
  depthAchieved : Bool
  trunkDeltaDeg : Option ℚ
deriving DecidableEq, Repr

/-- One evaluation inside the camera loop: run the rules, pick the first cue
whose kind differs from the per-rep memory, emit it and remember its kind. -/
def evalStep (spoke : Option CueType) (e : EvalInput) : Option CueType × List Cue :=
  let cues := checkRulesAtBottom
    { depthAchieved := e.depthAchieved, trunkDeltaDeg := e.trunkDeltaDeg,
      trunkDeltaThreshold := 16 }
  match selectCue spoke cues with
  | some c => (some c.type, [c])
  | none => (spoke, [])

/-- Emissions over one rep cycle: the spoken-kind memory starts cleared
(`spokeCueTypeThisRep = null`) and is threaded through the evaluations. -/
def repCycleFold (spoke : Option CueType) (out : List Cue) :
    List EvalInput → Option CueType × List Cue
  | [] => (spoke, out)
  | e :: rest =>
      let r := evalStep spoke e
      repCycleFold r.1 (out ++ r.2) rest

def repCycleEmissions (events : List EvalInput) : List Cue :=
  (repCycleFold none [] events).2

/-! ## Knee-depth mapping (src: CameraCanvas.tsx) -/

def clamp01 (x : ℚ) : ℚ := max 0 (min 1 x)

def COACH_KNEE_DEG : ℚ := 60

/-- `clamp01((180 - kneeNow) / (180 - COACH_KNEE_DEG))` -/
def kneeDepth (knee : ℚ) : ℚ :=
  clamp01 ((180 - knee) / (180 - COACH_KNEE_DEG))

/-! ## FSM theorems -/

lemma stepFSM_reps_le (ctx : RepContext) (hipY : ℚ) (d : Bool) :
    ctx.reps ≤ (stepFSM ctx hipY d).reps := by
  cases hs : ctx.state <;> simp only [stepFSM, hs] <;> (try split_ifs) <;> simp

lemma foldFSM_reps_le (l : List (ℚ × Bool)) (ctx : RepContext) :
    ctx.reps ≤ (List.foldl (fun c p => stepFSM c p.1 p.2) ctx l).reps := by
  induction l generalizing ctx with
  | nil => simp
  | cons p rest ih =>
      exact le_trans (stepFSM_reps_le ctx p.1 p.2) (by simpa using ih (stepFSM ctx p.1 p.2))

/-- C1: along any run of `stepFSM` the rep counter never decreases; whenever it
changes it increases by exactly 1, and that happens only on an
`ascent → lockout` transition at which the accumulated depth flag was true;
on every `ascent → lockout` transition the flag is reset to false. -/
theorem stepFSM_rep_invariant :
    (∀ (ctx : RepContext) (hipY : ℚ) (d : Bool),
      ctx.reps ≤ (stepFSM ctx hipY d).reps ∧
      ((stepFSM ctx hipY d).reps = ctx.reps ∨
        ((stepFSM ctx hipY d).reps = ctx.reps + 1 ∧
         ctx.state = State.ascent ∧ (stepFSM ctx hipY d).state = State.lockout ∧
         (ctx.depthReached || d) = true ∧ (stepFSM ctx hipY d).depthReached = false)) ∧
      (ctx.state = State.ascent → (stepFSM ctx hipY d).state = State.lockout →
        (stepFSM ctx hipY d).depthReached = false)) ∧
    (∀ (l1 l2 : List (ℚ × Bool)), (runFSM l1).reps ≤ (runFSM (l1 ++ l2)).reps) := by
  constructor
  · intro ctx hipY d
    refine ⟨stepFSM_reps_le ctx hipY d, ?_, ?_⟩
    · cases hs : ctx.state <;> simp only [stepFSM, hs]
      case idle => simp
      case bottom => simp
      case lockout => split_ifs <;> simp
      case descent => split_ifs <;> simp
      case ascent =>
        split_ifs with h1 h2
        · right
          exact ⟨by simp, trivial, by simp, h2, by simp⟩
        · simp
        · simp
    · intro h1 h2
      simp only [stepFSM, h1] at h2 ⊢
      split_ifs at h2 ⊢ <;> simp_all
  · intro l1 l2
    simp only [runFSM, List.foldl_append]
    exact foldFSM_reps_le l2 _

/-- C1 witness: a concrete `ascent → lockout` step with the depth flag set
counts the rep and clears the flag. -/
theorem stepFSM_rep_invariant_witness :
    (stepFSM { state := State.ascent, reps := 0, lastHipY := some 0, depthReached := true }
        0 false).depthReached = false :=
  (stepFSM_rep_invariant.1
      { state := State.ascent, reps := 0, lastHipY := some 0, depthReached := true }
      0 false).2.2 rfl (by simp only [stepFSM]; norm_num)

/-- C10: the first `stepFSM` call after `createFSM` computes velocity 0, stays
in `idle` with 0 reps, records `hipY`, and sets the depth flag to `depthOkay`. -/
theorem stepFSM_first_frame (hipY : ℚ) (d : Bool) :
    stepFSM createFSM hipY d =
      { state := State.idle, reps := 0, lastHipY := some hipY, depthReached := d } := by
  simp only [stepFSM, createFSM, Bool.false_or]
  norm_num

/-! ## Temporal gate theorems -/

lemma push_max (g : TemporalGate) (v : Bool) : (g.push v).2.max = g.max := rfl

lemma push_need (g : TemporalGate) (v : Bool) : (g.push v).2.need = g.need := rfl

lemma push_buf (g : TemporalGate) (v : Bool) :
    (g.push v).2.buf =
      if (g.buf ++ [v]).length > g.max then (g.buf ++ [v]).tail else g.buf ++ [v] := rfl

lemma push_fst (g : TemporalGate) (v : Bool) :
    (g.push v).1 = decide (g.need ≤ (((g.push v).2.buf).filter id).length) := rfl

lemma pushMany_append (g : TemporalGate) (l1 l2 : List Bool) :
    g.pushMany (l1 ++ l2) =
      ((g.pushMany l1).1 ++ ((g.pushMany l1).2.pushMany l2).1,
        ((g.pushMany l1).2.pushMany l2).2) := by
  induction l1 generalizing g with
  | nil => simp [TemporalGate.pushMany]
  | cons v rest ih => simp [TemporalGate.pushMany, ih]

lemma pushMany_max (g : TemporalGate) (l : List Bool) : (g.pushMany l).2.max = g.max := by
  induction l generalizing g with
  | nil => rfl
  | cons v rest ih => simp [TemporalGate.pushMany, ih, push_max]

lemma pushMany_need (g : TemporalGate) (l : List Bool) : (g.pushMany l).2.need = g.need := by
  induction l generalizing g with
  | nil => rfl
  | cons v rest ih => simp [TemporalGate.pushMany, ih, push_need]

/-- After pushing `l` into a fresh gate, the retained buffer is exactly the
last `min max l.length` samples, in arrival order. -/
lemma pushMany_buf (max need : ℕ) (l : List Bool) :
    ((TemporalGate.mk0 max need).pushMany l).2.buf = lastN (Nat.min max l.length) l := by
  induction l using List.reverseRecOn with
  | nil => simp [TemporalGate.pushMany, TemporalGate.mk0, lastN]
  | append_singleton l v ih =>
      rw [pushMany_append]
      simp only [TemporalGate.pushMany]
      rw [push_buf, ih, pushMany_max]
      simp only [TemporalGate.mk0]
      have hlv : (l ++ [v]).length = l.length + 1 := by simp
      rcases le_or_lt max l.length with hml | hml
      · -- the buffer is already at capacity: the oldest sample is evicted
        have hmin : Nat.min max l.length = max := Nat.min_eq_left hml
        have hmin2 : Nat.min max (l ++ [v]).length = max := by
          rw [hlv]; exact Nat.min_eq_left (by omega)
        have hlen : (lastN max l).length = max := by
          rw [lastN, List.length_drop]; omega
        rw [hmin, hmin2]
        have hcond : (lastN max l ++ [v]).length > max := by
          rw [List.length_append, hlen]
          simp only [List.length_cons, List.length_nil]
          omega
        rw [if_pos hcond]
        rcases Nat.eq_zero_or_pos max with h0 | hpos
        · subst h0
          have h1 : lastN 0 l = [] := by
            rw [lastN]; simp
          have h2 : lastN 0 (l ++ [v]) = [] := by
            rw [lastN]; simp
          rw [h1, h2]
          rfl
        · obtain ⟨b, B, hB⟩ : ∃ b B, lastN max l = b :: B := by
            cases hc : lastN max l with
            | nil => rw [hc] at hlen; simp at hlen; omega
            | cons b B => exact ⟨b, B, rfl⟩
          rw [hB]
          have hB2 : B = l.drop (l.length - max + 1) := by
            have htl := congrArg List.tail hB
            rw [lastN, List.tail_drop, List.tail_cons] at htl
            exact htl.symm
          simp only [List.cons_append, List.tail_cons]
          rw [hB2, lastN, hlv]
          rw [List.drop_append_of_le_length (by omega)]
          have hidx : l.length - max + 1 = l.length + 1 - max := by omega
          rw [hidx]
      · -- there is room left: every sample is retained
        have hmin : Nat.min max l.length = l.length := Nat.min_eq_right (le_of_lt hml)
        have hmin2 : Nat.min max (l ++ [v]).length = (l ++ [v]).length := by
          rw [hlv]; exact Nat.min_eq_right (by omega)
        have hfull : lastN l.length l = l := by
          rw [lastN]; simp
        rw [hmin, hmin2, hfull]
        have hcond : ¬ (l ++ [v]).length > max := by
          rw [hlv]; omega
        rw [if_neg hcond]
        rw [lastN]
        simp

/-- Every output of a run on a fresh gate is the N-of-M test applied to the
most recent `min max (i+1)` of the first `i+1` samples. -/
lemma pushMany_outputs (max need : ℕ) (l : List Bool) :
    ((TemporalGate.mk0 max need).pushMany l).1 =
      (List.range l.length).map
        (fun i =>
          decide (need ≤ ((lastN (Nat.min max (i + 1)) (l.take (i + 1))).filter id).length)) := by
  induction l using List.reverseRecOn with
  | nil => simp [TemporalGate.pushMany, TemporalGate.mk0]
  | append_singleton l v ih =>
      have hstep : ((TemporalGate.mk0 max need).pushMany (l ++ [v])).2 =
          ((((TemporalGate.mk0 max need).pushMany l).2).push v).2 := by
        rw [pushMany_append]
        simp [TemporalGate.pushMany]
      have hbuf2 : ((((TemporalGate.mk0 max need).pushMany l).2).push v).2.buf =
          lastN (Nat.min max (l ++ [v]).length) (l ++ [v]) := by
        rw [← hstep, pushMany_buf]
      rw [pushMany_append, ih]
      simp only [TemporalGate.pushMany]
      rw [push_fst, pushMany_need]
      have hneed : (TemporalGate.mk0 max need).need = need := rfl
      rw [hneed, hbuf2]
      have hlv : (l ++ [v]).length = l.length + 1 := by simp
      rw [hlv, List.range_succ, List.map_append]
      congr 1
      · apply List.map_congr_left
        intro i hi
        have hi2 : i < l.length := List.mem_range.mp hi
        rw [List.take_append_of_le_length (by omega)]
      · simp only [List.map_cons, List.map_nil]
        have ht : (l ++ [v]).take (l.length + 1) = l ++ [v] := by
          apply List.take_of_length_le
          rw [hlv]
        rw [ht]

lemma push_buf_len (g : TemporalGate) (v : Bool) :
    (g.push v).2.buf.length ≤ g.buf.length + 1 := by
  rw [push_buf]
  split_ifs <;> simp [List.length_tail]

/-- If fewer samples than `need` have entered since the buffer was empty,
every returned boolean is false. -/
lemma pushMany_all_false (l : List Bool) (g : TemporalGate)
    (h : g.buf.length + l.length < g.need) :
    ∀ b ∈ (g.pushMany l).1, b = false := by
  induction l generalizing g with
  | nil => simp [TemporalGate.pushMany]
  | cons v rest ih =>
      simp only [TemporalGate.pushMany, List.mem_cons]
      intro b hb
      rcases hb with hb | hb
      · subst hb
        rw [push_fst]
        simp only [decide_eq_false_iff_not, not_le]
        calc (((g.push v).2.buf).filter id).length
            ≤ (g.push v).2.buf.length := List.length_filter_le _ _
          _ ≤ g.buf.length + 1 := push_buf_len g v
          _ < g.need := by simp at h; omega
      · refine ih (g.push v).2 ?_ b hb
        rw [push_need]
        have := push_buf_len g v
        simp at h
        omega

/-- C2: for a gate of window `max` and threshold `need`, the `i`-th push
returns true iff at least `need` of the most recent `min(max, i+1)` samples
are true; and after a `reset`, a run of fewer than `need` pushes only ever
returns false. -/
theorem temporalGate_correct :
    (∀ (max need : ℕ) (l : List Bool),
      ((TemporalGate.mk0 max need).pushMany l).1 =
        (List.range l.length).map
          (fun i =>
            decide (need ≤ ((lastN (Nat.min max (i + 1)) (l.take (i + 1))).filter id).length))) ∧
    (∀ (g : TemporalGate) (l : List Bool), l.length < g.need →
      ∀ b ∈ ((g.reset).pushMany l).1, b = false) := by
  refine ⟨pushMany_outputs, fun g l h b hb => ?_⟩
  exact pushMany_all_false l g.reset (by simpa [TemporalGate.reset] using h) b hb

/-- C2 witness: a 2-of-3 gate over `[true, false, true, true]` returns
`[false, false, true, true]`, and two pushes into a fresh 2-of-3 gate after a
reset cannot return true. -/
theorem temporalGate_correct_witness :
    ((TemporalGate.mk0 3 2).pushMany [true, false, true, true]).1 =
      (List.range 4).map
        (fun i =>
          decide (2 ≤ ((lastN (Nat.min 3 (i + 1))
            ([true, false, true, true].take (i + 1))).filter id).length)) ∧
    ∀ b ∈ (((TemporalGate.mk0 3 2).reset).pushMany [true]).1, b = false := by
  refine ⟨temporalGate_correct.1 3 2 [true, false, true, true], ?_⟩
  exact temporalGate_correct.2 (TemporalGate.mk0 3 2) [true] (by decide)

/-! ## Rule-engine theorems -/

/-- C3 counterexample: with depth missed and a large trunk delta,
`checkRulesAtBottom` returns two cues — the depth cue and the trunk cue. -/
theorem checkRules_two_cues :
    checkRulesAtBottom
        { depthAchieved := false, trunkDeltaDeg := some 30, trunkDeltaThreshold := 18 } =
      [{ type := CueType.depth, message := "Go deeper" },
       { type := CueType.trunk, message := "Chest up" }] ∧
    (checkRulesAtBottom
        { depthAchieved := false, trunkDeltaDeg := some 30, trunkDeltaThreshold := 18 }).length
      = 2 := by
  constructor <;> norm_num [checkRulesAtBottom]

lemma selectCue_none (cues : List Cue) : selectCue none cues = cues.head? := by
  cases cues with
  | nil => rfl
  | cons c rest =>
      simp [selectCue, List.find?]

/-- C3 (amended): `checkRulesAtBottom` returns the list of all applicable
cues, depth cue first; it contains the depth cue iff depth was missed, the
trunk cue iff the trunk delta exceeds the threshold, and never a knee cue.
The camera loop's selection step emits at most one of them per evaluation —
a cue that is in the list and whose kind differs from the per-rep memory —
and with no kind yet spoken it emits exactly the first applicable cue. -/
theorem checkRules_select_first :
    ∀ (opts : RuleOpts),
      selectCue none (checkRulesAtBottom opts) = (checkRulesAtBottom opts).head? ∧
      (∀ (spoke : Option CueType) (c : Cue),
        selectCue spoke (checkRulesAtBottom opts) = some c →
          c ∈ checkRulesAtBottom opts ∧ some c.type ≠ spoke) ∧
      ((∃ c ∈ checkRulesAtBottom opts, c.type = CueType.depth) ↔
        opts.depthAchieved = false) ∧
      ((∃ c ∈ checkRulesAtBottom opts, c.type = CueType.trunk) ↔
        (∃ d, opts.trunkDeltaDeg = some d ∧ d > opts.trunkDeltaThreshold)) ∧
      (∀ c ∈ checkRulesAtBottom opts, c.type ≠ CueType.knee) := by
  intro opts
  obtain ⟨da, td, thr⟩ := opts
  refine ⟨selectCue_none _, ?_, ?_, ?_, ?_⟩
  · intro spoke c hc
    simp only [selectCue] at hc
    refine ⟨List.mem_of_find?_eq_some hc, ?_⟩
    have hp := List.find?_some hc
    simp at hp
    exact hp
  · cases da <;> rcases td with _ | d <;> simp [checkRulesAtBottom]
  · cases da <;> rcases td with _ | d <;> simp [checkRulesAtBottom] <;> aesop
  · intro c hc
    cases da <;> rcases td with _ | d <;> simp [checkRulesAtBottom] at hc <;> aesop

/-- C3 amended-claim witness at a concrete evaluation input. -/
theorem checkRules_select_first_witness :
    selectCue none
        (checkRulesAtBottom
          { depthAchieved := true, trunkDeltaDeg := none, trunkDeltaThreshold := 18 }) =
      (checkRulesAtBottom
          { depthAchieved := true, trunkDeltaDeg := none, trunkDeltaThreshold := 18 }).head? :=
  (checkRules_select_first
    { depthAchieved := true, trunkDeltaDeg := none, trunkDeltaThreshold := 18 }).1

/-- C4 counterexample: three bottom evaluations in one rep cycle, each with
depth missed and a large trunk lean, make the loop speak the depth cue, then
the trunk cue, then the depth cue again — the same kind twice in one cycle. -/
theorem repCycle_depth_twice :
    (repCycleEmissions
        [{ depthAchieved := false, trunkDeltaDeg := some 30 },
         { depthAchieved := false, trunkDeltaDeg := some 30 },
         { depthAchieved := false, trunkDeltaDeg := some 30 }]).map Cue.type =
      [CueType.depth, CueType.trunk, CueType.depth] ∧
    ((repCycleEmissions
        [{ depthAchieved := false, trunkDeltaDeg := some 30 },
         { depthAchieved := false, trunkDeltaDeg := some 30 },
         { depthAchieved := false, trunkDeltaDeg := some 30 }]).map Cue.type).count
        CueType.depth = 2 := by
  constructor <;> decide

lemma repCycleFold_chain (events : List EvalInput) :
    ∀ (spoke : Option CueType) (out : List Cue),
      List.Chain' (fun a b => a ≠ b) (out.map Cue.type) →
      (∀ k, (out.map Cue.type).getLast? = some k → spoke = some k) →
      List.Chain' (fun a b => a ≠ b) (((repCycleFold spoke out events).2).map Cue.type) := by
  induction events with
  | nil =>
      intro spoke out h1 h2
      simpa [repCycleFold] using h1
  | cons e rest ih =>
      intro spoke out h1 h2
      simp only [repCycleFold]
      rcases hsel : selectCue spoke
          (checkRulesAtBottom
            { depthAchieved := e.depthAchieved, trunkDeltaDeg := e.trunkDeltaDeg,
              trunkDeltaThreshold := 16 }) with _ | c
      · have hstep : evalStep spoke e = (spoke, []) := by
          simp [evalStep, hsel]
        rw [hstep]
        simpa using ih spoke out h1 h2
      · have hstep : evalStep spoke e = (some c.type, [c]) := by
          simp [evalStep, hsel]
        rw [hstep]
        have hpred : some c.type ≠ spoke := by
          simp only [selectCue] at hsel
          have hp := List.find?_some hsel
          simpa using hp
        apply ih
        · rw [List.map_append, List.chain'_append]
          refine ⟨h1, by simp, ?_⟩
          intro x hx y hy
          simp at hy
          subst hy
          have hspoke := h2 x (Option.mem_def.mp hx)
          intro hxy
          exact hpred (by rw [hspoke, hxy])
        · intro k hk
          rw [List.map_append] at hk
          simp only [List.map_cons, List.map_nil] at hk
          rw [List.getLast?_concat] at hk
          simpa using hk

/-- C4 (amended): within one repetition cycle the camera loop never emits the
same cue kind twice in a row — consecutive emissions always have different
kinds, because the selection skips the most recently spoken kind.  (The claim
as frozen — never twice per cycle — fails: the kind can recur after a
different kind is spoken in between, see the counterexample.) -/
theorem repCycle_no_consecutive_repeat (events : List EvalInput) :
    List.Chain' (fun a b => a ≠ b) ((repCycleEmissions events).map Cue.type) := by
  apply repCycleFold_chain
  · simp
  · intro k hk
    simp at hk

/-! ## Knee-depth theorems -/

/-- C5: the knee-angle depth map is antitone in the knee angle (deeper knee
bend gives larger depth), always lies in `[0, 1]`, is `0` at a straight
(180°) knee, and is `1` at or below the target angle. -/
theorem kneeDepth_monotone :
    (∀ k1 k2 : ℚ, k1 ≤ k2 → kneeDepth k2 ≤ kneeDepth k1) ∧
    (∀ k : ℚ, 0 ≤ kneeDepth k ∧ kneeDepth k ≤ 1) ∧
    kneeDepth 180 = 0 ∧
    (∀ k : ℚ, k ≤ COACH_KNEE_DEG → kneeDepth k = 1) := by
  refine ⟨?_, ?_, ?_, ?_⟩
  · intro k1 k2 h
    unfold kneeDepth clamp01
    have hc : (0:ℚ) < 180 - COACH_KNEE_DEG := by norm_num [COACH_KNEE_DEG]
    gcongr
  · intro k
    refine ⟨le_max_left 0 _, max_le (by norm_num) (min_le_left 1 _)⟩
  · norm_num [kneeDepth, clamp01, COACH_KNEE_DEG]
  · intro k hk
    unfold kneeDepth clamp01
    have h1 : (1:ℚ) ≤ (180 - k) / (180 - COACH_KNEE_DEG) := by
      rw [le_div_iff₀ (by norm_num [COACH_KNEE_DEG])]
      simp only [COACH_KNEE_DEG] at hk ⊢
      linarith
    rw [min_eq_left h1]
    norm_num

/-- C5 witness: a deeper knee (120° vs 100°) never lowers the depth, and 50°
(below the 60° target) maps to full depth. -/
theorem kneeDepth_monotone_witness :
    kneeDepth 120 ≤ kneeDepth 100 ∧ kneeDepth 50 = 1 :=
  ⟨kneeDepth_monotone.1 100 120 (by norm_num),
   kneeDepth_monotone.2.2.2 50 (by norm_num [COACH_KNEE_DEG])⟩

/-! ## Angle math (src: angles.ts) -/

namespace Angles

structure Pt where
  x : ℝ
  y : ℝ

/-- JavaScript `Math.atan2` on real inputs (signed zeros aside). -/
noncomputable def atan2 (y x : ℝ) : ℝ :=
  if 0 < x then Real.arctan (y / x)
  else if x < 0 then
    (if 0 ≤ y then Real.arctan (y / x) + Real.pi else Real.arctan (y / x) - Real.pi)
  else
    (if 0 < y then Real.pi / 2 else if y < 0 then -(Real.pi / 2) else 0)

/-- `trunkAngle`: absolute deviation, in degrees, of the hip→shoulder line
from vertical. -/
noncomputable def trunkAngle (hip shoulder : Pt) : ℝ :=
  let dy := hip.y - shoulder.y
  let dx := hip.x - shoulder.x
  let degFromHorizontal := atan2 dy dx * 180 / Real.pi
  abs (90 - abs degFromHorizontal)

end Angles

/-! ## One-Euro smoothing (src: smoothing.ts) -/

structure Pt where
  x : ℝ
  y : ℝ
  visibility : Option ℝ

noncomputable def alpha (dt cutoff : ℝ) : ℝ :=
  let tau := 1 / (2 * Real.pi * cutoff)
  1 / (1 + tau / (if dt = 0 then 1e-6 else dt))

structure LowPass where
  y : ℝ
  a : ℝ
  init : Bool
  cutoff : ℝ

/-- `new LowPass(cutoff)` -/
def LowPass.mk0 (cutoff : ℝ) : LowPass :=
  { y := 0, a := 0, init := false, cutoff := cutoff }

noncomputable def LowPass.filter (lp : LowPass) (x dt : ℝ) : ℝ × LowPass :=
  let a := alpha dt lp.cutoff
  if lp.init = false then
    (x, { lp with y := x, a := a, init := true })
  else
    let y2 := lp.y + a * (x - lp.y)
    (y2, { lp with y := y2, a := a })

structure OneEuro1D where
  xLP : LowPass
  dxLP : LowPass
  lastX : ℝ
  lastT : ℝ
  init : Bool
  minCutoff : ℝ
  beta : ℝ
  dCutoff : ℝ

/-- `new OneEuro1D(minCutoff, beta, dCutoff)` -/
def OneEuro1D.mk0 (minCutoff beta dCutoff : ℝ) : OneEuro1D :=
  { xLP := LowPass.mk0 minCutoff, dxLP := LowPass.mk0 dCutoff,
    lastX := 0, lastT := 0, init := false,
    minCutoff := minCutoff, beta := beta, dCutoff := dCutoff }

noncomputable def OneEuro1D.filter (f : OneEuro1D) (x t : ℝ) : ℝ × OneEuro1D :=
  if f.init = false then
    (x, { f with init := true, lastX := x, lastT := t })
  else
    let dt := max 1e-4 (t - f.lastT)
    let dx := (x - f.lastX) / dt
    let rd := f.dxLP.filter dx dt
    let cutoff := f.minCutoff + f.beta * |rd.1|
    let rx := f.xLP.filter x (dt * cutoff / f.minCutoff)
    (rx.1, { f with xLP := rx.2, dxLP := rd.2, lastX := x, lastT := t })

/-- Feed the same value `x` at each timestamp of `ts`, collecting outputs. -/
noncomputable def OneEuro1D.runConst (f : OneEuro1D) (x : ℝ) : List ℝ → List ℝ × OneEuro1D
  | [] => ([], f)
  | t :: rest =>
      let r := f.filter x t
      let rr := r.2.runConst x rest
      (r.1 :: rr.1, rr.2)

/-- The despike clamp applied to a raw input point before filtering:
if the jump from the previous output exceeds `maxJump`, pull the input back
along the displacement vector so the jump equals `maxJump`. -/
noncomputable def despike (prevPt : Option Pt) (p : Pt) (maxJump : ℝ) : ℝ × ℝ :=
  let px := (prevPt.map Pt.x).getD p.x
  let py := (prevPt.map Pt.y).getD p.y
  let dx := p.x - px
  let dy := p.y - py
  let mag := Real.sqrt (dx ^ 2 + dy ^ 2)
  if maxJump < mag then
    let scale := maxJump / mag
    (px + dx * scale, py + dy * scale)
  else (p.x, p.y)

/-- The per-joint body of `PoseSmoother.apply`. -/
noncomputable def smoothOne (prevPt : Option Pt) (fxi fyi : OneEuro1D) (p : Pt)
    (maxJump visThresh timeSec : ℝ) : Pt × OneEuro1D × OneEuro1D :=
  let v := p.visibility.getD 0
  if v < visThresh then
    (prevPt.getD p, fxi, fyi)
  else
    let c := despike prevPt p maxJump
    let rx := fxi.filter c.1 timeSec
    let ry := fyi.filter c.2 timeSec
    ({ x := rx.1, y := ry.1, visibility := p.visibility }, rx.2, ry.2)

structure PoseSmoother where
  fx : List OneEuro1D
  fy : List OneEuro1D
  prev : Option (List Pt)
  minCutoff : ℝ
  beta : ℝ
  dCutoff : ℝ
  maxJump : ℝ
  visThresh : ℝ

/-- `new PoseSmoother(minCutoff, beta, dCutoff, maxJump, visThresh)` -/
def PoseSmoother.mk0 (minCutoff beta dCutoff maxJump visThresh : ℝ) : PoseSmoother :=
  { fx := [], fy := [], prev := none, minCutoff := minCutoff, beta := beta,
    dCutoff := dCutoff, maxJump := maxJump, visThresh := visThresh }

/-- `ensureSize`: grow the filter banks with fresh filters up to length `n`. -/
def ensureSize (s : PoseSmoother) (n : ℕ) : PoseSmoother :=
  { s with
    fx := s.fx ++ List.replicate (n - s.fx.length) (OneEuro1D.mk0 s.minCutoff s.beta s.dCutoff),
    fy := s.fy ++ List.replicate (n - s.fy.length) (OneEuro1D.mk0 s.minCutoff s.beta s.dCutoff) }

/-- The joint-by-joint loop of `apply`: `i` is the running joint index used to
look up the previous frame's output. -/
noncomputable def applyList (prev : Option (List Pt)) (maxJump visThresh timeSec : ℝ) :
    ℕ → List OneEuro1D → List OneEuro1D → List Pt →
      List Pt × List OneEuro1D × List OneEuro1D
  | _, fxs, fys, [] => ([], fxs, fys)
  | i, fx0 :: fxs, fy0 :: fys, p :: ps =>
      let r := smoothOne (prev.bind fun l => l[i]?) fx0 fy0 p maxJump visThresh timeSec
      let rest := applyList prev maxJump visThresh timeSec (i + 1) fxs fys ps
      (r.1 :: rest.1, r.2.1 :: rest.2.1, r.2.2 :: rest.2.2)
  | _, [], fys, _ :: _ => ([], [], fys)
  | _, fxs, [], _ :: _ => ([], fxs, [])

noncomputable def PoseSmoother.apply (s : PoseSmoother) (kps : List Pt) (timeSec : ℝ) :
    List Pt × PoseSmoother :=
  let s1 := ensureSize s kps.length
  let r := applyList s.prev s.maxJump s.visThresh timeSec 0 s1.fx s1.fy kps
  (r.1, { s1 with fx := r.2.1, fy := r.2.2, prev := some r.1 })

/-! ## One-Euro fixed-point theorems -/

/-- The low-pass stage keeps `x` fixed once its state holds `x`. -/
lemma lowPass_filter_fixed (lp : LowPass) (x dt : ℝ) (hi : lp.init = true) (hy : lp.y = x) :
    (lp.filter x dt).1 = x ∧ (lp.filter x dt).2.init = true ∧ (lp.filter x dt).2.y = x := by
  simp [LowPass.filter, hi, hy]

/-- Invariant: the value low-pass is either still untouched or already holds `x`. -/
def fixedInv (x : ℝ) (f : OneEuro1D) : Prop :=
  f.xLP.init = false ∨ (f.xLP.init = true ∧ f.xLP.y = x)

lemma oneEuro_filter_const (f : OneEuro1D) (x t : ℝ) (h : fixedInv x f) :
    (f.filter x t).1 = x ∧ fixedInv x (f.filter x t).2 := by
  cases hinit : f.init with
  | false =>
      constructor
      · simp [OneEuro1D.filter, hinit]
      · simpa [OneEuro1D.filter, hinit, fixedInv] using h
  | true =>
      rcases h with h0 | ⟨h1, h2⟩
      · constructor
        · simp [OneEuro1D.filter, hinit, LowPass.filter, h0]
        · right
          simp [OneEuro1D.filter, hinit, LowPass.filter, h0, fixedInv]
      · have hfix := lowPass_filter_fixed f.xLP x
          ((max 1e-4 (t - f.lastT)) *
            (f.minCutoff + f.beta * abs ((f.dxLP.filter ((x - f.lastX) / max 1e-4 (t - f.lastT))
              (max 1e-4 (t - f.lastT))).1)) / f.minCutoff) h1 h2
        constructor
        · simp only [OneEuro1D.filter, hinit]
          simpa using hfix.1
        · right
          simp only [OneEuro1D.filter, hinit, fixedInv]
          simpa using ⟨hfix.2.1, hfix.2.2⟩

lemma runConst_all_const (x : ℝ) (ts : List ℝ) :
    ∀ (f : OneEuro1D), fixedInv x f → ∀ y ∈ (f.runConst x ts).1, y = x := by
  induction ts with
  | nil =>
      intro f h y hy
      simp [OneEuro1D.runConst] at hy
  | cons t rest ih =>
      intro f h y hy
      simp only [OneEuro1D.runConst, List.mem_cons] at hy
      obtain ⟨h1, h2⟩ := oneEuro_filter_const f x t h
      rcases hy with hy | hy
      · rw [hy]
        exact h1
      · exact ih _ h2 y hy

/-- C9: feeding a constant value `x` at strictly increasing timestamps makes
every output exactly `x`: the first call returns `x`, the distance of the
output from `x` is identically zero (so it never increases and is never
nonzero), and once the internal low-pass state holds `x` every further call
with input `x` returns exactly `x` and keeps that state. -/
theorem oneEuro_const_fixed_point :
    (∀ (mc b dc x : ℝ) (ts : List ℝ), List.Chain' (fun a b2 => a < b2) ts →
      ∀ y ∈ ((OneEuro1D.mk0 mc b dc).runConst x ts).1, y = x) ∧
    (∀ (f : OneEuro1D) (x t : ℝ), f.xLP.init = true → f.xLP.y = x →
      (f.filter x t).1 = x ∧ (f.filter x t).2.xLP.init = true ∧
      (f.filter x t).2.xLP.y = x) := by
  constructor
  · intro mc b dc x ts _ y hy
    exact runConst_all_const x ts _ (Or.inl rfl) y hy
  · intro f x t hi hy
    obtain ⟨h1, h2⟩ := oneEuro_filter_const f x t (Or.inr ⟨hi, hy⟩)
    rcases h2 with h2 | ⟨h2a, h2b⟩
    · refine ⟨h1, ?_, ?_⟩ <;>
        · exfalso
          cases hinit : f.init <;>
            simp [OneEuro1D.filter, hinit, LowPass.filter, hi] at h2
    · exact ⟨h1, h2a, h2b⟩

/-- C9 witness: a concrete filter whose low-pass state holds 5 returns
exactly 5 on the next call and keeps the state at 5. -/
theorem oneEuro_const_fixed_point_witness :
    (({ xLP := { y := 5, a := 0, init := true, cutoff := 1.2 },
        dxLP := LowPass.mk0 1.0, lastX := 5, lastT := 0, init := true,
        minCutoff := 1.2, beta := 0.007, dCutoff := 1.0 } : OneEuro1D).filter 5 1).1 = 5 :=
  (oneEuro_const_fixed_point.2
    { xLP := { y := 5, a := 0, init := true, cutoff := 1.2 },
      dxLP := LowPass.mk0 1.0, lastX := 5, lastT := 0, init := true,
      minCutoff := 1.2, beta := 0.007, dCutoff := 1.0 } 5 1 rfl rfl).1

/-! ## PoseSmoother theorems -/

lemma applyList_spec (prev : Option (List Pt)) (mj vt t : ℝ) :
    ∀ (ps : List Pt) (i0 : ℕ) (fxs fys : List OneEuro1D),
      ps.length ≤ fxs.length → ps.length ≤ fys.length →
      ∀ (i : ℕ) (hi : i < ps.length) (hix : i < fxs.length) (hiy : i < fys.length),
      (applyList prev mj vt t i0 fxs fys ps).1[i]? =
          some (smoothOne (prev.bind fun l => l[i0 + i]?) fxs[i] fys[i] ps[i] mj vt t).1 ∧
      (applyList prev mj vt t i0 fxs fys ps).2.1[i]? =
          some (smoothOne (prev.bind fun l => l[i0 + i]?) fxs[i] fys[i] ps[i] mj vt t).2.1 ∧
      (applyList prev mj vt t i0 fxs fys ps).2.2[i]? =
          some (smoothOne (prev.bind fun l => l[i0 + i]?) fxs[i] fys[i] ps[i] mj vt t).2.2 := by
  intro ps
  induction ps with
  | nil =>
      intro i0 fxs fys hx hy i hi hix hiy
      exact absurd hi (by simp)
  | cons p ps ih =>
      intro i0 fxs fys hx hy i hi hix hiy
      rcases fxs with _ | ⟨fx0, fxs⟩
      · simp at hx
      rcases fys with _ | ⟨fy0, fys⟩
      · simp at hy
      cases i with
      | zero =>
          simp [applyList]
      | succ j =>
          have hj : j < ps.length := by
            simp only [List.length_cons] at hi
            omega
          have hrec := ih (i0 + 1) fxs fys
            (by simp only [List.length_cons] at hx; omega)
            (by simp only [List.length_cons] at hy; omega)
            j hj
            (by simp only [List.length_cons] at hix; omega)
            (by simp only [List.length_cons] at hiy; omega)
          have harith : i0 + 1 + j = i0 + (j + 1) := by omega
          rw [harith] at hrec
          simpa [applyList] using hrec

lemma ensureSize_fx_length (s : PoseSmoother) (n : ℕ) :
    n ≤ (ensureSize s n).fx.length := by
  simp only [ensureSize, List.length_append, List.length_replicate]
  omega

lemma ensureSize_fy_length (s : PoseSmoother) (n : ℕ) :
    n ≤ (ensureSize s n).fy.length := by
  simp only [ensureSize, List.length_append, List.length_replicate]
  omega

lemma apply_fst (s : PoseSmoother) (kps : List Pt) (t : ℝ) :
    (s.apply kps t).1 =
      (applyList s.prev s.maxJump s.visThresh t 0
        (ensureSize s kps.length).fx (ensureSize s kps.length).fy kps).1 := rfl

lemma apply_fx (s : PoseSmoother) (kps : List Pt) (t : ℝ) :
    (s.apply kps t).2.fx =
      (applyList s.prev s.maxJump s.visThresh t 0
        (ensureSize s kps.length).fx (ensureSize s kps.length).fy kps).2.1 := rfl

lemma apply_fy (s : PoseSmoother) (kps : List Pt) (t : ℝ) :
    (s.apply kps t).2.fy =
      (applyList s.prev s.maxJump s.visThresh t 0
        (ensureSize s kps.length).fx (ensureSize s kps.length).fy kps).2.2 := rfl

/-- C7: a joint whose visibility is below the threshold is passed through:
its output is the previous frame's smoothed point (or the raw point when no
previous output exists), and its per-axis filter states are exactly the ones
`ensureSize` held before the loop — in particular, a pre-existing filter is
completely unchanged by the call. -/
theorem smoother_freezes_low_visibility :
    ∀ (s : PoseSmoother) (kps : List Pt) (t : ℝ) (i : ℕ) (hi : i < kps.length),
      kps[i].visibility.getD 0 < s.visThresh →
      (s.apply kps t).1[i]? = some ((s.prev.bind fun l => l[i]?).getD kps[i]) ∧
      (s.apply kps t).2.fx[i]? = (ensureSize s kps.length).fx[i]? ∧
      (s.apply kps t).2.fy[i]? = (ensureSize s kps.length).fy[i]? ∧
      (i < s.fx.length → (s.apply kps t).2.fx[i]? = s.fx[i]?) ∧
      (i < s.fy.length → (s.apply kps t).2.fy[i]? = s.fy[i]?) := by
  intro s kps t i hi hv
  have hix : i < (ensureSize s kps.length).fx.length :=
    lt_of_lt_of_le hi (ensureSize_fx_length s kps.length)
  have hiy : i < (ensureSize s kps.length).fy.length :=
    lt_of_lt_of_le hi (ensureSize_fy_length s kps.length)
  have hspec := applyList_spec s.prev s.maxJump s.visThresh t kps 0
    (ensureSize s kps.length).fx (ensureSize s kps.length).fy
    (ensureSize_fx_length s kps.length)
    (ensureSize_fy_length s kps.length) i hi hix hiy
  have hsm : smoothOne (s.prev.bind fun l => l[0 + i]?)
      (ensureSize s kps.length).fx[i] (ensureSize s kps.length).fy[i] kps[i]
      s.maxJump s.visThresh t =
      ((s.prev.bind fun l => l[0 + i]?).getD kps[i],
        (ensureSize s kps.length).fx[i], (ensureSize s kps.length).fy[i]) := by
    simp only [smoothOne]
    rw [if_pos hv]
  rw [hsm] at hspec
  simp only [Nat.zero_add] at hspec
  obtain ⟨h1, h2, h3⟩ := hspec
  refine ⟨?_, ?_, ?_, ?_, ?_⟩
  · rw [apply_fst]
    exact h1
  · rw [apply_fx, h2]
    exact (List.getElem?_eq_getElem hix).symm
  · rw [apply_fy, h3]
    exact (List.getElem?_eq_getElem hiy).symm
  · intro hilt
    rw [apply_fx, h2]
    rw [(List.getElem?_eq_getElem hix).symm]
    simp only [ensureSize]
    exact List.getElem?_append_left hilt
  · intro hilt
    rw [apply_fy, h3]
    rw [(List.getElem?_eq_getElem hiy).symm]
    simp only [ensureSize]
    exact List.getElem?_append_left hilt

/-- C7 witness: a single joint with visibility 0.1 (below the 0.15 threshold)
passes straight through a fresh smoother. -/
theorem smoother_freezes_low_visibility_witness :
    ((PoseSmoother.mk0 1.4 0.006 1.0 0.07 0.15).apply
        [{ x := 0.5, y := 0.5, visibility := some 0.1 }] 0).1[0]? =
      some { x := 0.5, y := 0.5, visibility := some 0.1 } := by
  have h := (smoother_freezes_low_visibility (PoseSmoother.mk0 1.4 0.006 1.0 0.07 0.15)
    [{ x := 0.5, y := 0.5, visibility := some 0.1 }] 0 0 (by simp)
    (by norm_num [PoseSmoother.mk0, List.getElem_cons_zero])).1
  simpa [PoseSmoother.mk0] using h

lemma despike_some (pp p : Pt) (mj : ℝ) :
    despike (some pp) p mj =
      if mj < Real.sqrt ((p.x - pp.x) ^ 2 + (p.y - pp.y) ^ 2) then
        (pp.x + (p.x - pp.x) * (mj / Real.sqrt ((p.x - pp.x) ^ 2 + (p.y - pp.y) ^ 2)),
         pp.y + (p.y - pp.y) * (mj / Real.sqrt ((p.x - pp.x) ^ 2 + (p.y - pp.y) ^ 2)))
      else (p.x, p.y) := by
  simp [despike]

/-- C6: if the raw point jumps further than `maxJump` from the previous
output, the input fed to the filters is pulled back along the displacement
vector so its distance from the previous output is exactly `maxJump`; the
fed displacement never exceeds `maxJump`.  Moreover `PoseSmoother.apply`
feeds every sufficiently visible joint's filters exactly the despiked
coordinates. -/
theorem despike_bounded :
    (∀ (pp p : Pt) (mj : ℝ), 0 < mj →
      (mj < Real.sqrt ((p.x - pp.x) ^ 2 + (p.y - pp.y) ^ 2) →
        0 < mj / Real.sqrt ((p.x - pp.x) ^ 2 + (p.y - pp.y) ^ 2) ∧
        mj / Real.sqrt ((p.x - pp.x) ^ 2 + (p.y - pp.y) ^ 2) < 1 ∧
        (despike (some pp) p mj).1 - pp.x =
          (p.x - pp.x) * (mj / Real.sqrt ((p.x - pp.x) ^ 2 + (p.y - pp.y) ^ 2)) ∧
        (despike (some pp) p mj).2 - pp.y =
          (p.y - pp.y) * (mj / Real.sqrt ((p.x - pp.x) ^ 2 + (p.y - pp.y) ^ 2)) ∧
        Real.sqrt (((despike (some pp) p mj).1 - pp.x) ^ 2 +
          ((despike (some pp) p mj).2 - pp.y) ^ 2) = mj) ∧
      Real.sqrt (((despike (some pp) p mj).1 - pp.x) ^ 2 +
        ((despike (some pp) p mj).2 - pp.y) ^ 2) ≤ mj) ∧
    (∀ (s : PoseSmoother) (kps : List Pt) (t : ℝ) (i : ℕ) (hi : i < kps.length),
      ¬ kps[i].visibility.getD 0 < s.visThresh →
      ∃ fx0 fy0,
        (ensureSize s kps.length).fx[i]? = some fx0 ∧
        (ensureSize s kps.length).fy[i]? = some fy0 ∧
        (s.apply kps t).1[i]? = some
          { x := (fx0.filter (despike (s.prev.bind fun l => l[i]?) kps[i] s.maxJump).1 t).1,
            y := (fy0.filter (despike (s.prev.bind fun l => l[i]?) kps[i] s.maxJump).2 t).1,
            visibility := kps[i].visibility } ∧
        (s.apply kps t).2.fx[i]? =
          some (fx0.filter (despike (s.prev.bind fun l => l[i]?) kps[i] s.maxJump).1 t).2 ∧
        (s.apply kps t).2.fy[i]? =
          some (fy0.filter (despike (s.prev.bind fun l => l[i]?) kps[i] s.maxJump).2 t).2) := by
  constructor
  · intro pp p mj hmj
    have hsum : (0:ℝ) ≤ (p.x - pp.x) ^ 2 + (p.y - pp.y) ^ 2 := by positivity
    have hmag2 : Real.sqrt ((p.x - pp.x) ^ 2 + (p.y - pp.y) ^ 2) ^ 2 =
        (p.x - pp.x) ^ 2 + (p.y - pp.y) ^ 2 := Real.sq_sqrt hsum
    rcases lt_or_ge mj (Real.sqrt ((p.x - pp.x) ^ 2 + (p.y - pp.y) ^ 2)) with hlt | hle
    · have hmagpos : 0 < Real.sqrt ((p.x - pp.x) ^ 2 + (p.y - pp.y) ^ 2) :=
        lt_trans hmj hlt
      have hdx : (despike (some pp) p mj).1 - pp.x =
          (p.x - pp.x) * (mj / Real.sqrt ((p.x - pp.x) ^ 2 + (p.y - pp.y) ^ 2)) := by
        rw [despike_some, if_pos hlt]
        ring
      have hdy : (despike (some pp) p mj).2 - pp.y =
          (p.y - pp.y) * (mj / Real.sqrt ((p.x - pp.x) ^ 2 + (p.y - pp.y) ^ 2)) := by
        rw [despike_some, if_pos hlt]
        ring
      have hdist : Real.sqrt (((despike (some pp) p mj).1 - pp.x) ^ 2 +
          ((despike (some pp) p mj).2 - pp.y) ^ 2) = mj := by
        rw [hdx, hdy]
        have hinner : ((p.x - pp.x) * (mj / Real.sqrt ((p.x - pp.x) ^ 2 + (p.y - pp.y) ^ 2))) ^ 2 +
            ((p.y - pp.y) * (mj / Real.sqrt ((p.x - pp.x) ^ 2 + (p.y - pp.y) ^ 2))) ^ 2 =
            (Real.sqrt ((p.x - pp.x) ^ 2 + (p.y - pp.y) ^ 2) *
              (mj / Real.sqrt ((p.x - pp.x) ^ 2 + (p.y - pp.y) ^ 2))) ^ 2 := by
          have hexp : ((p.x - pp.x) * (mj / Real.sqrt ((p.x - pp.x) ^ 2 + (p.y - pp.y) ^ 2))) ^ 2 +
              ((p.y - pp.y) * (mj / Real.sqrt ((p.x - pp.x) ^ 2 + (p.y - pp.y) ^ 2))) ^ 2 =
              ((p.x - pp.x) ^ 2 + (p.y - pp.y) ^ 2) *
                (mj / Real.sqrt ((p.x - pp.x) ^ 2 + (p.y - pp.y) ^ 2)) ^ 2 := by
            ring
          set M := Real.sqrt ((p.x - pp.x) ^ 2 + (p.y - pp.y) ^ 2) with hM
          rw [hexp, ← hmag2]
          ring
        rw [hinner, Real.sqrt_sq (by positivity)]
        field_simp
      have hmagp : 0 < Real.sqrt ((p.x - pp.x) ^ 2 + (p.y - pp.y) ^ 2) := hmagpos
      exact ⟨fun _ => ⟨div_pos hmj hmagp, (div_lt_one hmagp).mpr hlt, hdx, hdy, hdist⟩,
        le_of_eq hdist⟩
    · have heq : despike (some pp) p mj = (p.x, p.y) := by
        rw [despike_some, if_neg (not_lt.mpr hle)]
      constructor
      · intro hlt
        exact absurd hlt (not_lt.mpr hle)
      · rw [heq]
        exact hle
  · intro s kps t i hi hv
    have hix : i < (ensureSize s kps.length).fx.length :=
      lt_of_lt_of_le hi (ensureSize_fx_length s kps.length)
    have hiy : i < (ensureSize s kps.length).fy.length :=
      lt_of_lt_of_le hi (ensureSize_fy_length s kps.length)
    have hspec := applyList_spec s.prev s.maxJump s.visThresh t kps 0
      (ensureSize s kps.length).fx (ensureSize s kps.length).fy
      (ensureSize_fx_length s kps.length)
      (ensureSize_fy_length s kps.length) i hi hix hiy
    have hsm : smoothOne (s.prev.bind fun l => l[0 + i]?)
        (ensureSize s kps.length).fx[i] (ensureSize s kps.length).fy[i] kps[i]
        s.maxJump s.visThresh t =
        ({ x := ((ensureSize s kps.length).fx[i].filter
              (despike (s.prev.bind fun l => l[0 + i]?) kps[i] s.maxJump).1 t).1,
           y := ((ensureSize s kps.length).fy[i].filter
              (despike (s.prev.bind fun l => l[0 + i]?) kps[i] s.maxJump).2 t).1,
           visibility := kps[i].visibility },
         ((ensureSize s kps.length).fx[i].filter
            (despike (s.prev.bind fun l => l[0 + i]?) kps[i] s.maxJump).1 t).2,
         ((ensureSize s kps.length).fy[i].filter
            (despike (s.prev.bind fun l => l[0 + i]?) kps[i] s.maxJump).2 t).2) := by
      simp only [smoothOne]
      rw [if_neg hv]
    rw [hsm] at hspec
    simp only [Nat.zero_add] at hspec
    obtain ⟨h1, h2, h3⟩ := hspec
    refine ⟨(ensureSize s kps.length).fx[i], (ensureSize s kps.length).fy[i],
      (List.getElem?_eq_getElem hix), (List.getElem?_eq_getElem hiy), ?_, ?_, ?_⟩
    · rw [apply_fst]
      exact h1
    · rw [apply_fx]
      exact h2
    · rw [apply_fy]
      exact h3

/-- C6 witness: a raw jump of length 0.2 against a cap of 0.08 is clamped,
and the fed displacement stays within the cap. -/
theorem despike_bounded_witness :
    Real.sqrt (((despike (some { x := 0, y := 0, visibility := none })
        { x := 3/25, y := 4/25, visibility := none } (2/25)).1 -
        ({ x := 0, y := 0, visibility := none } : Pt).x) ^ 2 +
      ((despike (some { x := 0, y := 0, visibility := none })
        { x := 3/25, y := 4/25, visibility := none } (2/25)).2 -
        ({ x := 0, y := 0, visibility := none } : Pt).y) ^ 2) ≤ 2/25 :=
  (despike_bounded.1 { x := 0, y := 0, visibility := none }
    { x := 3/25, y := 4/25, visibility := none } (2/25) (by norm_num)).2

/-! ## Trunk-angle theorems -/

namespace Angles

lemma arctan_nonneg_of {x : ℝ} (h : 0 ≤ x) : 0 ≤ Real.arctan x := by
  have hm := Real.arctan_strictMono.monotone h
  rwa [Real.arctan_zero] at hm

lemma arctan_nonpos_of {x : ℝ} (h : x ≤ 0) : Real.arctan x ≤ 0 := by
  have hm := Real.arctan_strictMono.monotone h
  rwa [Real.arctan_zero] at hm

lemma abs_atan2_le_pi (y x : ℝ) : |atan2 y x| ≤ Real.pi := by
  have hpi := Real.pi_pos
  have h1 := Real.arctan_lt_pi_div_two (y / x)
  have h2 := Real.neg_pi_div_two_lt_arctan (y / x)
  unfold atan2
  split_ifs with hx1 hx2 hy1 hy2 hy3
  · rw [abs_le]
    constructor <;> linarith
  · have hs : Real.arctan (y / x) ≤ 0 :=
      arctan_nonpos_of (div_nonpos_of_nonneg_of_nonpos hy1 (le_of_lt hx2))
    rw [abs_le]
    constructor <;> linarith
  · have hs : 0 ≤ Real.arctan (y / x) :=
      arctan_nonneg_of (le_of_lt (div_pos_of_neg_of_neg (by linarith) hx2))
    rw [abs_le]
    constructor <;> linarith
  · rw [abs_le]
    constructor <;> linarith
  · rw [abs_le]
    constructor <;> linarith
  · rw [abs_le]
    constructor <;> linarith

lemma abs_atan2_neg_x (y x : ℝ) (h : ¬ (x = 0 ∧ y = 0)) :
    |atan2 y (-x)| = Real.pi - |atan2 y x| := by
  have hpi : (0:ℝ) < Real.pi := Real.pi_pos
  have harc2 : Real.arctan (y / x) < Real.pi / 2 := Real.arctan_lt_pi_div_two _
  have harc3 : -(Real.pi / 2) < Real.arctan (y / x) := Real.neg_pi_div_two_lt_arctan _
  rcases lt_trichotomy x 0 with hx | hx | hx
  · have hnx : 0 < -x := by linarith
    have hL : atan2 y (-x) = -Real.arctan (y / x) := by
      unfold atan2
      rw [if_pos hnx, div_neg, Real.arctan_neg]
    rcases le_or_lt 0 y with hy | hy
    · have ha1 : Real.arctan (y / x) ≤ 0 :=
        arctan_nonpos_of (div_nonpos_of_nonneg_of_nonpos hy (le_of_lt hx))
      have hR : atan2 y x = Real.arctan (y / x) + Real.pi := by
        unfold atan2
        rw [if_neg (by linarith : ¬ 0 < x), if_pos hx, if_pos hy]
      rw [hL, hR, abs_neg, abs_of_nonpos ha1,
        abs_of_nonneg (by linarith : (0:ℝ) ≤ Real.arctan (y / x) + Real.pi)]
      ring
    · have ha1 : 0 ≤ Real.arctan (y / x) :=
        arctan_nonneg_of (le_of_lt (div_pos_of_neg_of_neg hy hx))
      have hR : atan2 y x = Real.arctan (y / x) - Real.pi := by
        unfold atan2
        rw [if_neg (by linarith : ¬ 0 < x), if_pos hx, if_neg (by linarith : ¬ 0 ≤ y)]
      rw [hL, hR, abs_neg, abs_of_nonneg ha1,
        abs_of_nonpos (by linarith : Real.arctan (y / x) - Real.pi ≤ 0)]
      ring
  · subst hx
    have hy : y ≠ 0 := fun hy => h ⟨rfl, hy⟩
    have hval : |atan2 y 0| = Real.pi / 2 := by
      unfold atan2
      rw [if_neg (lt_irrefl 0), if_neg (lt_irrefl 0)]
      rcases lt_or_gt_of_ne hy with hy1 | hy1
      · rw [if_neg (by linarith : ¬ (0:ℝ) < y), if_pos hy1, abs_neg,
          abs_of_pos (by linarith : (0:ℝ) < Real.pi / 2)]
      · rw [if_pos hy1, abs_of_pos (by linarith : (0:ℝ) < Real.pi / 2)]
    rw [neg_zero, hval]
    ring
  · have hnx : -x < 0 := by linarith
    have hR : atan2 y x = Real.arctan (y / x) := by
      unfold atan2
      rw [if_pos hx]
    rcases le_or_lt 0 y with hy | hy
    · have ha1 : 0 ≤ Real.arctan (y / x) :=
        arctan_nonneg_of (div_nonneg hy (le_of_lt hx))
      have hL : atan2 y (-x) = -Real.arctan (y / x) + Real.pi := by
        unfold atan2
        rw [if_neg (by linarith : ¬ 0 < -x), if_pos hnx, if_pos hy, div_neg, Real.arctan_neg]
      rw [hL, hR, abs_of_nonneg ha1,
        abs_of_nonneg (by linarith : (0:ℝ) ≤ -Real.arctan (y / x) + Real.pi)]
      ring
    · have ha1 : Real.arctan (y / x) ≤ 0 :=
        arctan_nonpos_of (le_of_lt (div_neg_of_neg_of_pos hy hx))
      have hL : atan2 y (-x) = -Real.arctan (y / x) - Real.pi := by
        unfold atan2
        rw [if_neg (by linarith : ¬ 0 < -x), if_pos hnx, if_neg (by linarith : ¬ 0 ≤ y),
          div_neg, Real.arctan_neg]
      rw [hL, hR, abs_of_nonpos ha1,
        abs_of_nonpos (by linarith : -Real.arctan (y / x) - Real.pi ≤ 0)]
      ring

lemma trunkAngle_eq (hip shoulder : Pt) :
    trunkAngle hip shoulder =
      abs (90 - abs (atan2 (hip.y - shoulder.y) (hip.x - shoulder.x)) * 180 / Real.pi) := by
  have hpi : (0:ℝ) < Real.pi := Real.pi_pos
  have h0 : trunkAngle hip shoulder =
      abs (90 - abs (atan2 (hip.y - shoulder.y) (hip.x - shoulder.x) * 180 / Real.pi)) := rfl
  rw [h0]
  congr 1
  rw [abs_div, abs_mul, abs_of_pos hpi, abs_of_pos (by norm_num : (0:ℝ) < 180)]

lemma mirror_core (dy dx : ℝ) (h : ¬ (dx = 0 ∧ dy = 0)) :
    abs (90 - abs (atan2 dy (-dx)) * 180 / Real.pi) =
      abs (90 - abs (atan2 dy dx) * 180 / Real.pi) := by
  have hpi : Real.pi ≠ 0 := ne_of_gt Real.pi_pos
  rw [abs_atan2_neg_x dy dx h]
  have hexp : (Real.pi - abs (atan2 dy dx)) * 180 / Real.pi =
      180 - abs (atan2 dy dx) * 180 / Real.pi := by
    field_simp
    ring
  rw [hexp, show (90:ℝ) - (180 - abs (atan2 dy dx) * 180 / Real.pi) =
    -(90 - abs (atan2 dy dx) * 180 / Real.pi) from by ring, abs_neg]

/-- C8: for distinct hip and shoulder points the trunk angle lies in
`[0°, 90°]`, and it is invariant under left/right mirroring of the x
coordinates, both as `x ↦ -x` and as `x ↦ 1 - x`. -/
theorem trunkAngle_range_mirror :
    ∀ (hip shoulder : Pt), hip ≠ shoulder →
      0 ≤ trunkAngle hip shoulder ∧
      trunkAngle hip shoulder ≤ 90 ∧
      trunkAngle { x := -hip.x, y := hip.y } { x := -shoulder.x, y := shoulder.y } =
        trunkAngle hip shoulder ∧
      trunkAngle { x := 1 - hip.x, y := hip.y } { x := 1 - shoulder.x, y := shoulder.y } =
        trunkAngle hip shoulder := by
  intro hip shoulder hne
  have hpi : (0:ℝ) < Real.pi := Real.pi_pos
  have hd : ¬ (hip.x - shoulder.x = 0 ∧ hip.y - shoulder.y = 0) := by
    rintro ⟨h1, h2⟩
    apply hne
    cases hip
    cases shoulder
    simp only [Pt.mk.injEq]
    constructor <;> [linarith; linarith]
  have hA := abs_atan2_le_pi (hip.y - shoulder.y) (hip.x - shoulder.x)
  have hA0 : 0 ≤ |atan2 (hip.y - shoulder.y) (hip.x - shoulder.x)| := abs_nonneg _
  refine ⟨?_, ?_, ?_, ?_⟩
  · rw [trunkAngle_eq]
    exact abs_nonneg _
  · rw [trunkAngle_eq]
    rw [abs_le]
    constructor
    · have hub : |atan2 (hip.y - shoulder.y) (hip.x - shoulder.x)| * 180 / Real.pi ≤ 180 := by
        rw [div_le_iff₀ hpi]
        nlinarith
      linarith
    · have hlb : 0 ≤ |atan2 (hip.y - shoulder.y) (hip.x - shoulder.x)| * 180 / Real.pi := by
        positivity
      linarith
  · rw [trunkAngle_eq, trunkAngle_eq]
    simp only
    rw [show -hip.x - -shoulder.x = -(hip.x - shoulder.x) from by ring]
    exact mirror_core (hip.y - shoulder.y) (hip.x - shoulder.x) hd
  · rw [trunkAngle_eq, trunkAngle_eq]
    simp only
    rw [show 1 - hip.x - (1 - shoulder.x) = -(hip.x - shoulder.x) from by ring]
    exact mirror_core (hip.y - shoulder.y) (hip.x - shoulder.x) hd

/-- C8 witness: a vertical trunk segment from hip (0,1) to shoulder (0,0)
has an angle in `[0°, 90°]` and is mirror invariant. -/
theorem trunkAngle_range_mirror_witness :
    0 ≤ trunkAngle { x := 0, y := 1 } { x := 0, y := 0 } ∧
    trunkAngle { x := 0, y := 1 } { x := 0, y := 0 } ≤ 90 := by
  have h := trunkAngle_range_mirror { x := 0, y := 1 } { x := 0, y := 0 }
    (by simp [Pt.mk.injEq])
  exact ⟨h.1, h.2.1⟩

end Angles
